import Mathlib

/-!
Verification of the content-cleaning pipeline of the speed-read repository
(src/backend/llm_prompts.py, class ContentProcessor): chunking, bounded
concurrent dispatch to a rewrite capability, and assembly of the cleaned
document with per-chunk and total fallback.
-/

namespace SpeedRead

/-- Characters Python's str.split() with no argument treats as whitespace
(the ASCII ones; str.split() splits on runs of them and drops empty pieces). -/
def isPyWS (c : Char) : Bool :=
  c = ' ' || c = '\t' || c = '\n' || c = '\r' || c = '\x0b' || c = '\x0c'

/-- Translation of Python text.split() on the character list of a string:
split on whitespace characters and drop the empty pieces. -/
def pySplit (l : List Char) : List (List Char) :=
  (l.splitOnP isPyWS).filter (fun w => !w.isEmpty)

/-- Word count of a string as the source computes it: len(s.split()). -/
def wordCount (s : String) : Nat := (pySplit s.data).length

/-- Translation of ' '.join(ws) at the character-list level: words joined by
single spaces. -/
def joinSpace : List (List Char) → List Char
  | [] => []
  | [w] => w
  | w :: w2 :: ws => w ++ ' ' :: joinSpace (w2 :: ws)

/-- The empty string, the default content used where Python has no value. -/
def emptyStr : String := ""

/-- ContentProcessor._chunk_text: split text into chunks of chunk_size words
(self.chunk_size, 4000 in the source). A text of at most chunk_size words is
returned whole as the single chunk; otherwise the word list is cut into
ceil(total_words / chunk_size) slices of chunk_size words (the last possibly
shorter), each rejoined with single spaces. -/
def _chunk_text (chunk_size : Nat) (text : String) : List String :=
  let words := pySplit text.data
  let total_words := words.length
  if total_words ≤ chunk_size then [text]
  else
    let num_chunks := (total_words + chunk_size - 1) / chunk_size
    (List.range num_chunks).map (fun i =>
      String.mk (joinSpace ((words.drop (i * chunk_size)).take chunk_size)))

/-- Outcome of one invocation of the rewrite capability (the Groq chat
completion call inside _process_chunk): the cleaned text, or the message of
the exception the call raised. -/
def Capability : Type := String → Except String String

/-- ContentProcessor._process_chunk: invoke the capability on the chunk and
return (chunk_index, cleaned text); on any exception, log and return the
original chunk text unchanged. -/
def _process_chunk (cap : Capability) (chunk : String) (chunk_index : Nat) :
    Nat × String :=
  match cap chunk with
  | .ok cleaned => (chunk_index, cleaned)
  | .error _ => (chunk_index, chunk)

/-- RewriteResult record of the data model: the per-chunk result with its
index, its text, and whether the capability invocation succeeded (which
branch of the try in _process_chunk was taken). -/
structure RewriteResult where
  index : Nat
  text : String
  succeeded : Bool
deriving DecidableEq

/-- View of _process_chunk that also records which branch was taken: on
success the cleaned text with succeeded true, on exception the original chunk
with succeeded false. -/
def _process_chunk_result (cap : Capability) (chunk : String)
    (chunk_index : Nat) : RewriteResult :=
  match cap chunk with
  | .ok cleaned => ⟨chunk_index, cleaned, true⟩
  | .error _ => ⟨chunk_index, chunk, false⟩

/-- Results of the fan-out in process_for_reading: one _process_chunk call per
enumerated (index, chunk) pair; asyncio.gather returns them in submission
order. -/
def dispatchPairs (cap : Capability) (chunks : List String) :
    List (Nat × String) :=
  chunks.enum.map (fun ic => _process_chunk cap ic.2 ic.1)

/-- The fan-out results in RewriteResult form. -/
def dispatchResults (cap : Capability) (chunks : List String) :
    List RewriteResult :=
  chunks.enum.map (fun ic => _process_chunk_result cap ic.2 ic.1)

/-- Translation of sorted(results, key) by chunk index in process_for_reading;
sorting is stable and the indices are distinct, so insertion sort computes the
same list Python's sort does. -/
def sortByIndex (rs : List (Nat × String)) : List (Nat × String) :=
  List.insertionSort (fun a b => a.1 ≤ b.1) rs

/-- CleanedDocument: the dictionary process_for_reading returns. The error
field is none exactly when the success-path dictionary, which carries no error
key, was returned. -/
structure CleanedDocument where
  cleaned_content : String
  word_count : Nat
  chunks_processed : Nat
  success : Bool
  error : Option String
deriving DecidableEq

/-- Separator used to combine cleaned chunks in process_for_reading. -/
def blankSep : String := "\n\n"

/-- Message of the ValueError ThreadPoolExecutor raises when it is given
max_workers equal to zero, which happens only if the chunk list is empty. -/
def valueErrorMsg : String := "max_workers must be greater than 0"

/-- Message of the AttributeError raised when Python evaluates None.split(). -/
def attrErrorMsg : String := "AttributeError: NoneType object has no attribute split"

/-- Body of ContentProcessor.process_for_reading, given the outcome of the
_chunk_text call (its chunk list, or the exception it raised, which the
try/except around the whole pipeline catches). One chunk: process it directly.
Several: fan out, gather, sort by index, join with a blank line. The except
branch returns the total fallback built from the original content. An empty
chunk list would make ThreadPoolExecutor raise ValueError, caught by the same
except branch. -/
def processBody (cap : Capability) (chunkRes : Except String (List String))
    (content : String) : CleanedDocument :=
  match chunkRes with
  | .ok chunks =>
    if chunks.length = 1 then
      let cleaned := (_process_chunk cap (chunks.getD 0 emptyStr) 0).2
      ⟨cleaned, wordCount cleaned, chunks.length, true, none⟩
    else if chunks.length = 0 then
      ⟨content, wordCount content, 0, false, some valueErrorMsg⟩
    else
      let cleaned := String.intercalate blankSep
        ((sortByIndex (dispatchPairs cap chunks)).map Prod.snd)
      ⟨cleaned, wordCount cleaned, chunks.length, true, none⟩
  | .error e => ⟨content, wordCount content, 0, false, some e⟩

/-- ContentProcessor.process_for_reading on a string input, with the source's
chunk size 4000: on a string the chunk step cannot raise. -/
def process_for_reading (cap : Capability) (content : String) :
    CleanedDocument :=
  processBody cap (.ok (_chunk_text 4000 content)) content

/-- Chunk step on a possibly-None content: _chunk_text first evaluates
text.split(), so a None content raises AttributeError out of _chunk_text. -/
def chunkStep (chunk_size : Nat) (content : Option String) :
    Except String (List String) :=
  match content with
  | none => .error attrErrorMsg
  | some s => .ok (_chunk_text chunk_size s)

/-- Python-level content.split() where content may be None: None.split()
raises AttributeError. -/
def pySplitPy : Option String → Except String (List (List Char))
  | none => .error attrErrorMsg
  | some s => .ok (pySplit s.data)

/-- process_for_reading on a possibly-None content. When the chunk step
raises, the except branch builds the fallback dictionary, whose word_count
entry evaluates len(content.split()); for a None content that raises again,
and the AttributeError escapes process_for_reading (modelled as .error). -/
def process_for_reading_py (cap : Capability) (content : Option String) :
    Except String CleanedDocument :=
  match chunkStep 4000 content with
  | .ok chunks => .ok (processBody cap (.ok chunks) (content.getD emptyStr))
  | .error e =>
    match pySplitPy content with
    | .ok ws => .ok ⟨content.getD emptyStr, ws.length, 0, false, some e⟩
    | .error e2 => .error e2

/-- Concurrency bound handed to ThreadPoolExecutor in process_for_reading:
min(self.max_workers, len(chunks)), with self.max_workers = 50. -/
def poolBound (max_workers : Nat) (chunks : List String) : Nat :=
  min max_workers chunks.length

/-- Modelled from the spec: the worker-pool semantics of ThreadPoolExecutor,
which is library code outside this repository. The pool state while running N
tasks records the index of the next task to hand to a worker, the indices
currently running, and the finished indices. -/
structure PoolState where
  nextIdx : Nat
  running : List Nat
  done : List Nat
deriving DecidableEq

/-- Modelled from the spec: one scheduling step of the bounded pool. A task
may start only while fewer than W tasks are running; any running task may
finish; interleaving is otherwise arbitrary. -/
inductive PoolStep (W N : Nat) : PoolState → PoolState → Prop
  | start (s : PoolState) (h : s.running.length < W) (hn : s.nextIdx < N) :
      PoolStep W N s ⟨s.nextIdx + 1, s.nextIdx :: s.running, s.done⟩
  | finish (s : PoolState) (i : Nat) (h : i ∈ s.running) :
      PoolStep W N s ⟨s.nextIdx, s.running.erase i, i :: s.done⟩

/-- Initial pool state: no task submitted, none running, none done. -/
def initPool : PoolState := ⟨0, [], []⟩

/-- Pool states reachable from the initial state under any interleaving. -/
inductive PoolReachable (W N : Nat) : PoolState → Prop
  | init : PoolReachable W N initPool
  | step {s t : PoolState} : PoolReachable W N s → PoolStep W N s t →
      PoolReachable W N t

/-- Message of a failing rewrite-service call. -/
def serviceErrMsg : String := "ServiceError: request timed out"

/-- Sample capability that fails on every chunk. -/
def failCap : Capability := fun _ => .error serviceErrMsg

/-- Sample capability that returns every chunk unchanged. -/
def okCap : Capability := fun s => .ok s

/-- Sample input of the hello-world scenario. -/
def helloWorld : String := "hello world"

/-- Sample two-chunk list. -/
def twoChunks : List String := ["a", "b"]

/-- Sample three-word input for chunker witnesses. -/
def abcText : String := "a b c"

/-- Sample arrival order of dispatched results: the later-indexed chunk
completed first. -/
def arrivalSample : List (Nat × String) := [(1, "b"), (0, "a")]

/-! Helper lemmas about Python-style splitting and joining. -/

/-- Pieces produced by splitOnP contain no separator character. -/
lemma splitOnP_mem_not_p {α : Type} (p : α → Bool) :
    ∀ (l : List α) (w : List α), w ∈ List.splitOnP p l → ∀ c ∈ w, ¬ p c := by
  intro l
  induction l with
  | nil =>
    intro w hw c hc
    rw [List.splitOnP_nil] at hw
    simp only [List.mem_singleton] at hw
    subst hw
    simp at hc
  | cons x xs ih =>
    intro w hw c hc
    rw [List.splitOnP_cons] at hw
    by_cases hx : p x
    · rw [if_pos hx] at hw
      rcases List.mem_cons.mp hw with h | h
      · subst h; simp at hc
      · exact ih w h c hc
    · rw [if_neg hx] at hw
      rcases hsp : List.splitOnP p xs with _ | ⟨h0, t⟩
      · exact absurd hsp (List.splitOnP_ne_nil p xs)
      · rw [hsp] at hw
        simp only [List.modifyHead, List.mem_cons] at hw
        rcases hw with h | h
        · subst h
          rcases List.mem_cons.mp hc with h | h
          · subst h; simpa using hx
          · exact ih h0 (by rw [hsp]; exact List.mem_cons_self _ _) c h
        · exact ih w (by rw [hsp]; exact List.mem_cons_of_mem _ h) c hc

/-- Words produced by pySplit are nonempty. -/
lemma pySplit_mem_ne_nil {l : List Char} {w : List Char}
    (hw : w ∈ pySplit l) : w ≠ [] := by
  unfold pySplit at hw
  have h := (List.mem_filter.mp hw).2
  simpa using h

/-- Words produced by pySplit contain no whitespace character. -/
lemma pySplit_mem_no_ws {l : List Char} {w : List Char}
    (hw : w ∈ pySplit l) : ∀ c ∈ w, ¬ isPyWS c :=
  splitOnP_mem_not_p isPyWS l w (List.mem_filter.mp hw).1

/-- Splitting a nonempty single-space join of whitespace-free words recovers
the words, at the splitOnP level. -/
lemma splitOnP_joinSpace (ws : List (List Char))
    (h2 : ∀ w ∈ ws, ∀ c ∈ w, ¬ isPyWS c) :
    ws ≠ [] → List.splitOnP isPyWS (joinSpace ws) = ws := by
  induction ws with
  | nil => intro h; exact absurd rfl h
  | cons w ws ih =>
    intro _
    cases ws with
    | nil =>
      show List.splitOnP isPyWS (joinSpace [w]) = [w]
      have : joinSpace [w] = w := rfl
      rw [this]
      exact List.splitOnP_eq_single _ _ (h2 w (List.mem_cons_self _ _))
    | cons w2 ws' =>
      show List.splitOnP isPyWS (w ++ ' ' :: joinSpace (w2 :: ws')) = w :: w2 :: ws'
      rw [List.splitOnP_first _ _ (h2 w (List.mem_cons_self _ _)) ' ' rfl]
      rw [ih (fun u hu => h2 u (List.mem_cons_of_mem _ hu)) (by simp)]

/-- Round trip for the chunker joins: pySplit of a single-space join of
nonempty, whitespace-free words is the word list itself. -/
lemma pySplit_joinSpace (ws : List (List Char))
    (h1 : ∀ w ∈ ws, w ≠ []) (h2 : ∀ w ∈ ws, ∀ c ∈ w, ¬ isPyWS c) :
    pySplit (joinSpace ws) = ws := by
  cases ws with
  | nil => rfl
  | cons w ws' =>
    unfold pySplit
    rw [splitOnP_joinSpace _ h2 (by simp)]
    rw [List.filter_eq_self.mpr ?_]
    intro a ha
    simpa using h1 a ha

/-- Round trip for a slice of the words of some text. -/
lemma pySplit_joinSpace_slice (l : List Char) (sl : List (List Char))
    (hsub : ∀ w ∈ sl, w ∈ pySplit l) :
    pySplit (joinSpace sl) = sl :=
  pySplit_joinSpace sl (fun w hw => pySplit_mem_ne_nil (hsub w hw))
    (fun w hw => pySplit_mem_no_ws (hsub w hw))

/-- Joining a list headed by a nonempty word is nonempty. -/
lemma joinSpace_ne_nil (w : List Char) (ws : List (List Char)) (hw : w ≠ []) :
    joinSpace (w :: ws) ≠ [] := by
  cases ws with
  | nil => simpa [joinSpace] using hw
  | cons w2 ws' => simp [joinSpace]

/-- Facts about the ceiling division the chunker uses for its chunk count. -/
lemma ceil_div_facts (cs len : Nat) (hcs : 0 < cs) (hlen : 0 < len) :
    len ≤ ((len + cs - 1) / cs) * cs ∧ (((len + cs - 1) / cs) - 1) * cs < len ∧
    0 < (len + cs - 1) / cs := by
  have h1 : len + cs - 1 = (len - 1) + cs := by omega
  have hdm := Nat.div_add_mod (len - 1) cs
  have hml : (len - 1) % cs < cs := Nat.mod_lt _ hcs
  rw [h1, Nat.add_div_right _ hcs, Nat.add_sub_cancel]
  generalize hq : (len - 1) / cs = q at hdm ⊢
  generalize hr : (len - 1) % cs = r at hdm hml
  have h2 : (q + 1) * cs = q * cs + cs := Nat.succ_mul _ _
  have h3 : cs * q = q * cs := Nat.mul_comm _ _
  exact ⟨by omega, by omega, by omega⟩

/-- Concatenating the contiguous slices of size cs recovers the list. -/
lemma slices_flatten {α : Type} (cs : Nat) :
    ∀ (N : Nat) (l : List α), l.length ≤ N * cs →
    ((List.range N).map (fun i => (l.drop (i * cs)).take cs)).flatten = l := by
  intro N
  induction N with
  | zero =>
    intro l h
    have hl : l = [] := List.eq_nil_of_length_eq_zero (by simpa using h)
    subst hl
    rfl
  | succ n ih =>
    intro l h
    rw [List.range_succ_eq_map, List.map_cons, List.map_map, List.flatten_cons]
    have hhead : (l.drop (0 * cs)).take cs = l.take cs := by simp
    have hfun : ((fun i => (l.drop (i * cs)).take cs) ∘ Nat.succ) =
        (fun i => ((l.drop cs).drop (i * cs)).take cs) := by
      funext i
      have hm : (i + 1) * cs = cs + i * cs := by ring
      simp [Function.comp, List.drop_drop, hm]
    have hlen2 : (l.drop cs).length ≤ n * cs := by
      rw [List.length_drop]
      have : (n + 1) * cs = n * cs + cs := Nat.succ_mul _ _
      omega
    rw [hhead, hfun, ih (l.drop cs) hlen2]
    exact List.take_append_drop cs l

/-! Helper lemmas about the chunker. -/

/-- Chunker on a small text: the single original text. -/
lemma _chunk_text_small (cs : Nat) (text : String)
    (h : (pySplit text.data).length ≤ cs) :
    _chunk_text cs text = [text] := by
  simp [_chunk_text, h]

/-- Chunker on a large text: slices of the word list, space-joined. -/
lemma _chunk_text_big (cs : Nat) (text : String)
    (h : cs < (pySplit text.data).length) :
    _chunk_text cs text =
      (List.range (((pySplit text.data).length + cs - 1) / cs)).map (fun i =>
        String.mk (joinSpace (((pySplit text.data).drop (i * cs)).take cs))) := by
  simp only [_chunk_text]
  rw [if_neg (Nat.not_le.mpr h)]

/-- Chunker output is never the empty list. -/
lemma _chunk_text_ne_nil (cs : Nat) (text : String) (hcs : 0 < cs) :
    _chunk_text cs text ≠ [] := by
  by_cases h : (pySplit text.data).length ≤ cs
  · simp [_chunk_text_small cs text h]
  · push_neg at h
    rw [_chunk_text_big cs text h]
    have h3 := (ceil_div_facts cs (pySplit text.data).length hcs (by omega)).2.2
    simp only [ne_eq, List.map_eq_nil_iff, List.range_eq_nil]
    omega

/-! Claims about the chunker. -/

/-- Claim C6: for every input text, concatenating the word sequences of the
chunks returned by _chunk_text, in index order, yields exactly the
whitespace-token sequence of the original text: no word is lost, duplicated,
or reordered. -/
theorem C6_chunk_words_roundtrip (cs : Nat) (text : String) (hcs : 0 < cs) :
    ((_chunk_text cs text).map (fun c => pySplit c.data)).flatten =
      pySplit text.data := by
  by_cases h : (pySplit text.data).length ≤ cs
  · rw [_chunk_text_small cs text h]
    simp
  · push_neg at h
    rw [_chunk_text_big cs text h, List.map_map]
    have hcong : ∀ i ∈ List.range (((pySplit text.data).length + cs - 1) / cs),
        ((fun c : String => pySplit c.data) ∘ fun i =>
          String.mk (joinSpace (((pySplit text.data).drop (i * cs)).take cs))) i =
        ((pySplit text.data).drop (i * cs)).take cs := by
      intro i _
      show pySplit (String.mk (joinSpace _)).data = _
      exact pySplit_joinSpace_slice text.data _
        (fun w hw => List.mem_of_mem_drop (List.mem_of_mem_take hw))
    rw [List.map_congr_left hcong]
    exact slices_flatten cs _ _ (ceil_div_facts cs _ hcs (by omega)).1

/-- Witness for C6 with chunk size 2 on a three-word text. -/
theorem C6_chunk_words_roundtrip_witness :
    0 < 2 ∧
    ((_chunk_text 2 abcText).map (fun c => pySplit c.data)).flatten =
      pySplit abcText.data :=
  ⟨by decide, C6_chunk_words_roundtrip 2 abcText (by decide)⟩

/-- Claim C5: a text of at most chunk_size whitespace tokens (the empty text
included) is returned as exactly one chunk equal to the text, at index 0; the
empty input gives a single empty chunk, and no chunk is ever empty unless the
input text is empty. -/
theorem C5_small_input (cs : Nat) (text : String) (hcs : 0 < cs)
    (hsmall : (pySplit text.data).length ≤ cs) :
    _chunk_text cs text = [text] ∧
    _chunk_text cs emptyStr = [emptyStr] ∧
    (∀ t : String, ∀ c ∈ _chunk_text cs t, c = emptyStr → t = emptyStr) := by
  refine ⟨_chunk_text_small cs text hsmall,
    _chunk_text_small cs emptyStr (Nat.zero_le cs), ?_⟩
  intro t c hc hceq
  by_cases ht : (pySplit t.data).length ≤ cs
  · rw [_chunk_text_small cs t ht, List.mem_singleton] at hc
    rw [← hc]
    exact hceq
  · push_neg at ht
    rw [_chunk_text_big cs t ht, List.mem_map] at hc
    obtain ⟨i, hi, hci⟩ := hc
    rw [List.mem_range] at hi
    exfalso
    have hfacts := ceil_div_facts cs (pySplit t.data).length hcs (by omega)
    have hislice : i * cs < (pySplit t.data).length := by
      have h5 : i ≤ ((pySplit t.data).length + cs - 1) / cs - 1 := by omega
      have h6 : i * cs ≤ (((pySplit t.data).length + cs - 1) / cs - 1) * cs :=
        Nat.mul_le_mul_right cs h5
      have h7 := hfacts.2.1
      omega
    have hslice_pos : 0 < (((pySplit t.data).drop (i * cs)).take cs).length := by
      rw [List.length_take, List.length_drop]
      omega
    rcases hsl : ((pySplit t.data).drop (i * cs)).take cs with _ | ⟨w, rest⟩
    · rw [hsl] at hslice_pos
      simp at hslice_pos
    · have hwmem : w ∈ ((pySplit t.data).drop (i * cs)).take cs := by
        rw [hsl]
        exact List.mem_cons_self _ _
      have hw : w ≠ [] := pySplit_mem_ne_nil
        (List.mem_of_mem_drop (List.mem_of_mem_take hwmem))
      apply joinSpace_ne_nil w rest hw
      have hmk : String.mk (joinSpace (((pySplit t.data).drop (i * cs)).take cs))
          = emptyStr := by
        rw [hci, hceq]
      rw [hsl] at hmk
      exact congrArg String.data hmk

/-- Witness for C5 with chunk size 2 on the two-word sample text. -/
theorem C5_small_input_witness :
    (pySplit helloWorld.data).length ≤ 2 ∧
    (_chunk_text 2 helloWorld = [helloWorld] ∧
     _chunk_text 2 emptyStr = [emptyStr] ∧
     (∀ t : String, ∀ c ∈ _chunk_text 2 t, c = emptyStr → t = emptyStr)) :=
  ⟨by decide, C5_small_input 2 helloWorld (by decide) (by decide)⟩

/-- Claim C4: when the word count exceeds chunk_size, _chunk_text returns
exactly ceil(total / chunk_size) chunks, chunk i being the contiguous
non-overlapping slice of at most chunk_size words starting at i * chunk_size,
rejoined with single spaces and indexed in slice order; all chunks but
possibly the last have exactly chunk_size words, and when the total is
chunk_size * k with k > 1 there are exactly k chunks of exactly chunk_size
words each. -/
theorem C4_chunk_partition (cs : Nat) (text : String) (hcs : 0 < cs)
    (hbig : cs < (pySplit text.data).length) :
    (_chunk_text cs text).length =
      ((pySplit text.data).length + cs - 1) / cs ∧
    (∀ i, i < (_chunk_text cs text).length →
      (_chunk_text cs text).getD i emptyStr =
        String.mk (joinSpace (((pySplit text.data).drop (i * cs)).take cs))) ∧
    (∀ i, i < (_chunk_text cs text).length →
      wordCount ((_chunk_text cs text).getD i emptyStr) ≤ cs) ∧
    (∀ i, i + 1 < (_chunk_text cs text).length →
      wordCount ((_chunk_text cs text).getD i emptyStr) = cs) ∧
    (∀ k, 1 < k → (pySplit text.data).length = cs * k →
      (_chunk_text cs text).length = k ∧
      ∀ i, i < k → wordCount ((_chunk_text cs text).getD i emptyStr) = cs) := by
  have hb := _chunk_text_big cs text hbig
  obtain ⟨hub, hlb, hposN⟩ :=
    ceil_div_facts cs (pySplit text.data).length hcs (by omega)
  have hlen : (_chunk_text cs text).length =
      ((pySplit text.data).length + cs - 1) / cs := by
    rw [hb]
    simp
  have hdata : ∀ l : List Char, (String.mk l).data = l := fun _ => rfl
  have hget : ∀ i, i < (_chunk_text cs text).length →
      (_chunk_text cs text).getD i emptyStr =
        String.mk (joinSpace (((pySplit text.data).drop (i * cs)).take cs)) := by
    intro i hi
    rw [hlen] at hi
    rw [hb, List.getD_eq_getElem?_getD, List.getElem?_map, List.getElem?_range hi]
    rfl
  have hwc : ∀ i, i < (_chunk_text cs text).length →
      wordCount ((_chunk_text cs text).getD i emptyStr) =
        (((pySplit text.data).drop (i * cs)).take cs).length := by
    intro i hi
    rw [hget i hi]
    unfold wordCount
    rw [hdata]
    rw [pySplit_joinSpace_slice text.data _
      (fun w hw => List.mem_of_mem_drop (List.mem_of_mem_take hw))]
  refine ⟨hlen, hget, ?_, ?_, ?_⟩
  · intro i hi
    rw [hwc i hi, List.length_take]
    exact min_le_left _ _
  · intro i hi
    have hi2 : i < (_chunk_text cs text).length := by omega
    rw [hwc i hi2, List.length_take, List.length_drop]
    rw [hlen] at hi
    have h5 : i + 1 ≤ ((pySplit text.data).length + cs - 1) / cs - 1 := by omega
    have h6 : (i + 1) * cs ≤ (((pySplit text.data).length + cs - 1) / cs - 1) * cs :=
      Nat.mul_le_mul_right cs h5
    have h7 : (i + 1) * cs = i * cs + cs := Nat.succ_mul _ _
    omega
  · intro k hk1 hkeq
    have hcomm : ∀ a b : Nat, a * b = b * a := fun a b => Nat.mul_comm a b
    have hNk : ((pySplit text.data).length + cs - 1) / cs = k := by
      have ha : cs * k ≤ (((pySplit text.data).length + cs - 1) / cs) * cs := by
        omega
      have ha2 : cs * k ≤ cs * (((pySplit text.data).length + cs - 1) / cs) := by
        rw [hcomm cs (((pySplit text.data).length + cs - 1) / cs)]
        exact ha
      have hk_le : k ≤ ((pySplit text.data).length + cs - 1) / cs :=
        Nat.le_of_mul_le_mul_left ha2 hcs
      have hb2 : cs * ((((pySplit text.data).length + cs - 1) / cs) - 1) < cs * k := by
        rw [hcomm cs ((((pySplit text.data).length + cs - 1) / cs) - 1)]
        omega
      have hlt : (((pySplit text.data).length + cs - 1) / cs) - 1 < k :=
        Nat.lt_of_mul_lt_mul_left hb2
      omega
    refine ⟨by rw [hlen, hNk], ?_⟩
    intro i hik
    have hi2 : i < (_chunk_text cs text).length := by
      rw [hlen, hNk]
      omega
    rw [hwc i hi2, List.length_take, List.length_drop]
    have h5 : i + 1 ≤ k := by omega
    have h6 : (i + 1) * cs ≤ k * cs := Nat.mul_le_mul_right cs h5
    have h7 : (i + 1) * cs = i * cs + cs := Nat.succ_mul _ _
    have h8 : k * cs = cs * k := Nat.mul_comm _ _
    omega

/-- Witness for C4 with chunk size 2 on a three-word text. -/
theorem C4_chunk_partition_witness :
    0 < 2 ∧ 2 < (pySplit abcText.data).length ∧
    ((_chunk_text 2 abcText).length = ((pySplit abcText.data).length + 2 - 1) / 2 ∧
     (∀ i, i < (_chunk_text 2 abcText).length →
       (_chunk_text 2 abcText).getD i emptyStr =
         String.mk (joinSpace (((pySplit abcText.data).drop (i * 2)).take 2))) ∧
     (∀ i, i < (_chunk_text 2 abcText).length →
       wordCount ((_chunk_text 2 abcText).getD i emptyStr) ≤ 2) ∧
     (∀ i, i + 1 < (_chunk_text 2 abcText).length →
       wordCount ((_chunk_text 2 abcText).getD i emptyStr) = 2) ∧
     (∀ k, 1 < k → (pySplit abcText.data).length = 2 * k →
       (_chunk_text 2 abcText).length = k ∧
       ∀ i, i < k → wordCount ((_chunk_text 2 abcText).getD i emptyStr) = 2)) :=
  ⟨by decide, by decide, C4_chunk_partition 2 abcText (by decide) (by decide)⟩

/-! Helper lemmas about the dispatcher. -/

instance : IsTotal (Nat × String) (fun a b => a.1 ≤ b.1) :=
  ⟨fun a b => Nat.le_total a.1 b.1⟩

instance : IsTrans (Nat × String) (fun a b => a.1 ≤ b.1) :=
  ⟨fun _ _ _ h1 h2 => Nat.le_trans h1 h2⟩

/-- The per-chunk result keeps the index of its chunk on both branches. -/
lemma _process_chunk_fst (cap : Capability) (c : String) (i : Nat) :
    (_process_chunk cap c i).1 = i := by
  unfold _process_chunk
  cases cap c <;> rfl

/-- One result per chunk. -/
lemma dispatchPairs_length (cap : Capability) (chunks : List String) :
    (dispatchPairs cap chunks).length = chunks.length := by
  simp [dispatchPairs]

/-- The indices of the dispatched results, in submission order, are 0..N-1. -/
lemma dispatchPairs_map_fst (cap : Capability) (chunks : List String) :
    (dispatchPairs cap chunks).map Prod.fst = List.range chunks.length := by
  unfold dispatchPairs
  rw [List.map_map]
  have hf : (Prod.fst ∘ fun ic : Nat × String => _process_chunk cap ic.2 ic.1) =
      Prod.fst := by
    funext ic
    exact _process_chunk_fst cap ic.2 ic.1
  rw [hf, List.enum_map_fst]

/-- The submission-order results are strictly sorted by index. -/
lemma dispatchPairs_sorted_lt (cap : Capability) (chunks : List String) :
    List.Pairwise (fun a b : Nat × String => a.1 < b.1)
      (dispatchPairs cap chunks) := by
  have h := List.pairwise_lt_range chunks.length
  rw [← dispatchPairs_map_fst cap chunks] at h
  exact (List.pairwise_map).mp h

/-- Claim C3: whatever the completion order of the concurrent capability calls
(any permutation of the full result set reaching the gather), sorting by index
recovers exactly the N submission-order results, with indices 0..N-1 each
appearing exactly once; the output consumes the result of every dispatched
call, so nothing is returned before all calls resolved. -/
theorem C3_order_invariant (cap : Capability) (chunks : List String)
    (arrival : List (Nat × String))
    (hperm : arrival.Perm (dispatchPairs cap chunks)) :
    sortByIndex arrival = dispatchPairs cap chunks ∧
    arrival.length = chunks.length ∧
    (sortByIndex arrival).map Prod.fst = List.range chunks.length := by
  have hsp : (sortByIndex arrival).Perm (dispatchPairs cap chunks) :=
    (List.perm_insertionSort _ arrival).trans hperm
  have hsorted_le : List.Pairwise (fun a b : Nat × String => a.1 ≤ b.1)
      (sortByIndex arrival) :=
    List.sorted_insertionSort _ arrival
  have hnodup : ((sortByIndex arrival).map Prod.fst).Nodup := by
    have hd : ((dispatchPairs cap chunks).map Prod.fst).Nodup := by
      rw [dispatchPairs_map_fst]
      exact List.nodup_range _
    exact ((hsp.map Prod.fst).symm).nodup hd
  have hsorted_lt : List.Pairwise (fun a b : Nat × String => a.1 < b.1)
      (sortByIndex arrival) := by
    have hne : List.Pairwise (fun a b : Nat × String => a.1 ≠ b.1)
        (sortByIndex arrival) := (List.pairwise_map).mp hnodup
    exact (hsorted_le.and hne).imp (fun h => lt_of_le_of_ne h.1 h.2)
  have heq : sortByIndex arrival = dispatchPairs cap chunks := by
    haveI : IsAntisymm (Nat × String) (fun a b => a.1 < b.1) :=
      ⟨fun a b h1 h2 => absurd (h1.trans h2) (lt_irrefl _)⟩
    exact List.eq_of_perm_of_sorted hsp hsorted_lt
      (dispatchPairs_sorted_lt cap chunks)
  refine ⟨heq, ?_, ?_⟩
  · rw [hperm.length_eq, dispatchPairs_length]
  · rw [heq, dispatchPairs_map_fst]

/-- Witness for C3: two chunks whose results arrive in reversed order. -/
theorem C3_order_invariant_witness :
    arrivalSample.Perm (dispatchPairs okCap twoChunks) ∧
    (sortByIndex arrivalSample = dispatchPairs okCap twoChunks ∧
     arrivalSample.length = twoChunks.length ∧
     (sortByIndex arrivalSample).map Prod.fst = List.range twoChunks.length) :=
  ⟨by decide, C3_order_invariant okCap twoChunks arrivalSample (by decide)⟩

/-! Claims about the pipeline: fallback, invariants, error handling. -/

/-- Result j of the fan-out depends only on the capability and chunk j. -/
lemma dispatchResults_getElem? (cap : Capability) (chunks : List String)
    (j : Nat) :
    (dispatchResults cap chunks)[j]? =
      (chunks[j]?).map (fun c => _process_chunk_result cap c j) := by
  unfold dispatchResults
  rw [List.getElem?_map, List.getElem?_enum]
  cases chunks[j]? <;> rfl

/-- Claim C2: when the capability raises on chunk i, the per-chunk result for
i carries the original chunk text with succeeded false, every other chunk's
result is the one computed from its own chunk alone, and the document still
reports success true with chunks_processed equal to the number of chunks; in
particular, "hello world" with an always-failing capability yields back
"hello world" with success true and chunks_processed 1. -/
theorem C2_per_chunk_fallback (cap : Capability) (chunks : List String)
    (i : Nat) (e : String) (hi : i < chunks.length)
    (hfail : cap (chunks.getD i emptyStr) = .error e) :
    ((dispatchResults cap chunks)[i]? =
      some ⟨i, chunks.getD i emptyStr, false⟩ ∧
     ∀ j, (dispatchResults cap chunks)[j]? =
       (chunks[j]?).map (fun c => _process_chunk_result cap c j)) ∧
    (∀ content, _chunk_text 4000 content = chunks →
      (process_for_reading cap content).success = true ∧
      (process_for_reading cap content).chunks_processed = chunks.length) ∧
    process_for_reading failCap helloWorld = ⟨helloWorld, 2, 1, true, none⟩ := by
  have hgetD : chunks[i]? = some (chunks.getD i emptyStr) := by
    rw [List.getElem?_eq_getElem hi, List.getD_eq_getElem?_getD,
      List.getElem?_eq_getElem hi]
    rfl
  refine ⟨⟨?_, fun j => dispatchResults_getElem? cap chunks j⟩, ?_, by decide⟩
  · have hfail2 : cap (chunks[i]?.getD emptyStr) = .error e := by
      rw [← List.getD_eq_getElem?_getD]
      exact hfail
    rw [dispatchResults_getElem?, hgetD]
    simp [_process_chunk_result, hfail2, List.getD_eq_getElem?_getD]
  · intro content hc
    have hne : chunks ≠ [] := by
      intro h0
      rw [h0] at hi
      simp at hi
    unfold process_for_reading
    rw [hc]
    by_cases h1 : chunks.length = 1
    · simp [processBody, h1]
    · have h0 : ¬ chunks.length = 0 := by
        simpa using List.length_pos.mpr hne |>.ne'
      simp [processBody, h1, h0]

/-- Witness for C2: a failing capability on a two-chunk list, chunk 0. -/
theorem C2_per_chunk_fallback_witness :
    0 < twoChunks.length ∧
    failCap (twoChunks.getD 0 emptyStr) = .error serviceErrMsg ∧
    (((dispatchResults failCap twoChunks)[0]? =
       some ⟨0, twoChunks.getD 0 emptyStr, false⟩ ∧
      ∀ j, (dispatchResults failCap twoChunks)[j]? =
        (twoChunks[j]?).map (fun c => _process_chunk_result failCap c j)) ∧
     (∀ content, _chunk_text 4000 content = twoChunks →
       (process_for_reading failCap content).success = true ∧
       (process_for_reading failCap content).chunks_processed =
         twoChunks.length) ∧
     process_for_reading failCap helloWorld = ⟨helloWorld, 2, 1, true, none⟩) :=
  ⟨by decide, rfl,
   C2_per_chunk_fallback failCap twoChunks 0 serviceErrMsg (by decide) rfl⟩

/-- Claim C1: for every input string, process_for_reading returns a
CleanedDocument and no exception escapes; whenever the pipeline-level chunk
step raises, the returned record carries the original unmodified input text,
success false, chunks_processed 0, and the error value. -/
theorem C1_total_fallback (cap : Capability) (content : String)
    (chunkRes : Except String (List String)) (e : String)
    (h : chunkRes = .error e) :
    process_for_reading_py cap (some content) =
      .ok (process_for_reading cap content) ∧
    processBody cap chunkRes content =
      ⟨content, wordCount content, 0, false, some e⟩ := by
  subst h
  exact ⟨rfl, rfl⟩

/-- Witness for C1: the fallback on a concrete chunk-step failure. -/
theorem C1_total_fallback_witness :
    (Except.error serviceErrMsg : Except String (List String)) =
      .error serviceErrMsg ∧
    (process_for_reading_py okCap (some helloWorld) =
       .ok (process_for_reading okCap helloWorld) ∧
     processBody okCap (.error serviceErrMsg) helloWorld =
       ⟨helloWorld, 2, 0, false, some serviceErrMsg⟩) := by
  refine ⟨rfl, ?_⟩
  have h := C1_total_fallback okCap helloWorld (.error serviceErrMsg)
    serviceErrMsg rfl
  refine ⟨h.1, ?_⟩
  rw [h.2]
  decide

/-- Claim C7: every CleanedDocument the pipeline returns, on the success path
and on the total-fallback path alike, has word_count equal to the
whitespace-token count of the text field of that same record. -/
theorem C7_word_count (cap : Capability)
    (chunkRes : Except String (List String)) (content : String) :
    (processBody cap chunkRes content).word_count =
      wordCount (processBody cap chunkRes content).cleaned_content ∧
    (process_for_reading cap content).word_count =
      wordCount (process_for_reading cap content).cleaned_content := by
  have hgen : ∀ cr : Except String (List String),
      (processBody cap cr content).word_count =
        wordCount (processBody cap cr content).cleaned_content := by
    intro cr
    cases cr with
    | error e => rfl
    | ok chunks =>
      by_cases h1 : chunks.length = 1
      · simp [processBody, h1]
      · by_cases h0 : chunks.length = 0 <;> simp [processBody, h1, h0]
  exact ⟨hgen chunkRes, hgen (.ok (_chunk_text 4000 content))⟩

/-- Claim C10: a returned record has no error field and a positive
chunks_processed exactly when success is true; equivalently success false
comes with an error value and chunks_processed 0. On a string input the real
pipeline always takes the success path. -/
theorem C10_success_invariants (cap : Capability)
    (chunkRes : Except String (List String)) (content : String) :
    ((processBody cap chunkRes content).error = none ↔
      (processBody cap chunkRes content).success = true) ∧
    ((processBody cap chunkRes content).chunks_processed = 0 ↔
      (processBody cap chunkRes content).success = false) ∧
    ((process_for_reading cap content).success = true ∧
     1 ≤ (process_for_reading cap content).chunks_processed ∧
     (process_for_reading cap content).error = none) := by
  have hgen : ∀ cr : Except String (List String),
      ((processBody cap cr content).error = none ↔
        (processBody cap cr content).success = true) ∧
      ((processBody cap cr content).chunks_processed = 0 ↔
        (processBody cap cr content).success = false) := by
    intro cr
    cases cr with
    | error e => simp [processBody]
    | ok chunks =>
      by_cases h1 : chunks.length = 1
      · simp [processBody, h1]
      · by_cases h0 : chunks.length = 0
        · simp [processBody, h1, h0]
        · simp [processBody, h1, h0]
  have hne := _chunk_text_ne_nil 4000 content (by decide)
  have hlen : 0 < (_chunk_text 4000 content).length := List.length_pos.mpr hne
  refine ⟨(hgen chunkRes).1, (hgen chunkRes).2, ?_⟩
  unfold process_for_reading
  by_cases h1 : (_chunk_text 4000 content).length = 1
  · simp [processBody, h1]
  · have h0 : ¬ (_chunk_text 4000 content).length = 0 := by omega
    simp [processBody, h1, h0]
    omega

/-- Claim C8 counterexample: on the empty string the chunker does not raise;
it returns a single empty chunk and process_for_reading takes the success
path, so the claimed fallback (success false, chunks_processed 0) does not
occur. -/
theorem C8_counterexample :
    _chunk_text 4000 emptyStr = [emptyStr] ∧
    chunkStep 4000 (some emptyStr) = .ok [emptyStr] ∧
    ¬ ((process_for_reading okCap emptyStr).success = false ∧
       (process_for_reading okCap emptyStr).chunks_processed = 0) :=
  ⟨by decide, rfl, by decide⟩

/-- Claim C8 amended: for None input the chunk step raises AttributeError and
the except branch raises again while computing the fallback word count, so
the exception escapes process_for_reading; for the empty string the chunker
returns one single empty chunk and process_for_reading returns success true
with chunks_processed 1. -/
theorem C8_amended (cap : Capability) :
    chunkStep 4000 none = .error attrErrorMsg ∧
    process_for_reading_py cap none = .error attrErrorMsg ∧
    _chunk_text 4000 emptyStr = [emptyStr] ∧
    (process_for_reading cap emptyStr).success = true ∧
    (process_for_reading cap emptyStr).chunks_processed = 1 :=
  ⟨rfl, rfl, by decide, rfl, rfl⟩

/-- Claim C9: with more than one chunk, the pool runs the capability calls
with ceiling min(max_concurrency, number of chunks), max_concurrency being
the source's max_workers of 50; in every reachable state of the bounded pool
the number of running invocations never exceeds that ceiling. -/
theorem C9_concurrency_ceiling (chunks : List String) (s : PoolState)
    (_hmany : 1 < chunks.length)
    (hreach : PoolReachable (poolBound 50 chunks) chunks.length s) :
    s.running.length ≤ poolBound 50 chunks := by
  induction hreach with
  | init => simp [initPool]
  | step hr hstep ih =>
    cases hstep with
    | start h hn =>
      simpa using h
    | finish i h =>
      exact le_trans (List.Sublist.length_le (List.erase_sublist i _)) ih

/-- Witness for C9: the state after starting the first of two chunks. -/
theorem C9_concurrency_ceiling_witness :
    1 < twoChunks.length ∧
    (PoolState.mk 1 [0] []).running.length ≤ poolBound 50 twoChunks :=
  ⟨by decide, C9_concurrency_ceiling twoChunks ⟨1, [0], []⟩ (by decide)
    (PoolReachable.step PoolReachable.init
      (PoolStep.start initPool (by decide) (by decide)))⟩

end SpeedRead
